import Mathlib

/-!
Verification of the bank-app review preprocessing and thematic-analysis
pipeline (`scripts/preprocess_bank_app_reviews.py` and
`scripts/thematic_analysis.py`), shallowly embedded in Lean.

Reviews are modelled as structures of their relevant columns; the pandas
DataFrame operations used by the scripts are embedded as list operations;
external collaborators (the statistical language detector, the translation
service, the TF-IDF vectorizer) are parameters of the embedded functions,
and fixed external data (Unicode tables, the NLTK stopword list) is
modelled by explicit tables noted in the doc comments.
-/

namespace BankApps

/-- A review record as it flows through `preprocess_bank_app_reviews.py`:
the columns `review`, `rating`, `date`, `bank`, `source` used by the
deduplication, date-normalization and balancing stages. -/
structure PRow where
  review : String
  rating : Int
  date : String
  bank : String
  source : String
deriving DecidableEq, Repr

/-- The deduplication key: the column subset
`['review', 'rating', 'date', 'bank', 'source']` passed to
`df.drop_duplicates` in `remove_duplicates`. -/
def dedupKey (r : PRow) : String × Int × String × String × String :=
  (r.review, r.rating, r.date, r.bank, r.source)

/-- Worker for `drop_duplicates(keep='first')`: scan the rows in order,
keeping a row iff its key has not been seen before. -/
def dropDupGo (seen : List (String × Int × String × String × String)) :
    List PRow → List PRow
  | [] => []
  | r :: rs =>
    if dedupKey r ∈ seen then dropDupGo seen rs
    else r :: dropDupGo (dedupKey r :: seen) rs

/-- Embeds `remove_duplicates(df)`:
`df.drop_duplicates(subset=['review','rating','date','bank','source'], keep='first')`. -/
def remove_duplicates (df : List PRow) : List PRow :=
  dropDupGo [] df

theorem dropDupGo_sublist (seen : List (String × Int × String × String × String)) :
    ∀ l : List PRow, (dropDupGo seen l).Sublist l := by
  intro l
  induction l generalizing seen with
  | nil => simp [dropDupGo]
  | cons x xs ih =>
    unfold dropDupGo
    by_cases h : dedupKey x ∈ seen
    · simp only [if_pos h]
      exact (ih seen).trans (List.sublist_cons_self x xs)
    · simp only [if_neg h]
      exact (ih (dedupKey x :: seen)).cons₂ x

theorem dropDupGo_not_seen (seen : List (String × Int × String × String × String))
    (l : List PRow) : ∀ r ∈ dropDupGo seen l, dedupKey r ∉ seen := by
  induction l generalizing seen with
  | nil => simp [dropDupGo]
  | cons x xs ih =>
    unfold dropDupGo
    by_cases h : dedupKey x ∈ seen
    · simpa [if_pos h] using ih seen
    · simp only [if_neg h]
      intro r hr
      rcases List.mem_cons.mp hr with rfl | hr'
      · exact h
      · have := ih (dedupKey x :: seen) r hr'
        exact fun hmem => this (List.mem_cons_of_mem _ hmem)

theorem dropDupGo_pairwise (seen : List (String × Int × String × String × String))
    (l : List PRow) :
    (dropDupGo seen l).Pairwise (fun a b => dedupKey a ≠ dedupKey b) := by
  induction l generalizing seen with
  | nil => simp [dropDupGo]
  | cons x xs ih =>
    unfold dropDupGo
    by_cases h : dedupKey x ∈ seen
    · simpa [if_pos h] using ih seen
    · simp only [if_neg h]
      refine List.pairwise_cons.mpr ⟨?_, ih (dedupKey x :: seen)⟩
      intro b hb hkey
      have := dropDupGo_not_seen (dedupKey x :: seen) xs b hb
      exact this (by simp [hkey])

theorem dropDupGo_first_occ (l : List PRow)
    (seen : List (String × Int × String × String × String)) (r : PRow)
    (hr : r ∈ dropDupGo seen l) :
    dedupKey r ∉ seen ∧
      l.find? (fun s => dedupKey s == dedupKey r) = some r := by
  induction l generalizing seen with
  | nil => simp [dropDupGo] at hr
  | cons x xs ih =>
    unfold dropDupGo at hr
    by_cases h : dedupKey x ∈ seen
    · rw [if_pos h] at hr
      obtain ⟨hnot, hfind⟩ := ih seen hr
      refine ⟨hnot, ?_⟩
      have hne : dedupKey x ≠ dedupKey r := fun he => hnot (he ▸ h)
      rw [List.find?_cons_of_neg, hfind]
      simpa using hne
    · rw [if_neg h] at hr
      rcases List.mem_cons.mp hr with rfl | hr'
      · exact ⟨h, List.find?_cons_of_pos _ (by simp)⟩
      · obtain ⟨hnot, hfind⟩ := ih (dedupKey x :: seen) hr'
        have hne : dedupKey x ≠ dedupKey r := by
          intro he
          exact hnot (by simp [he])
        refine ⟨fun hmem => hnot (List.mem_cons_of_mem _ hmem), ?_⟩
        rw [List.find?_cons_of_neg, hfind]
        simpa using hne

/-- C8: the Deduplicator's output has count ≤ input count, no two output
rows share a dedup-key tuple, each surviving row is the first occurrence
of its tuple in the input, and the output preserves the input's relative
order (it is a sublist of the input). -/
theorem C8_dedup_invariant (df : List PRow) :
    (remove_duplicates df).length ≤ df.length ∧
      (remove_duplicates df).Sublist df ∧
      (remove_duplicates df).Pairwise (fun a b => dedupKey a ≠ dedupKey b) ∧
      ∀ r ∈ remove_duplicates df,
        df.find? (fun s => dedupKey s == dedupKey r) = some r := by
  refine ⟨(dropDupGo_sublist [] df).length_le, dropDupGo_sublist [] df,
    dropDupGo_pairwise [] df, ?_⟩
  intro r hr
  exact (dropDupGo_first_occ df [] r hr).2

/-! ### Balancer (`balance_reviews`) -/

/-- Exceptions of the pandas and sklearn calls the scripts make and do
not catch: the `ValueError` raised by `pd.to_datetime` on unparsable
input, by `pd.concat` on an empty list of frames, and by
`TfidfVectorizer.fit_transform` on an empty vocabulary; and the
`AttributeError` raised by accessing a method an object does not
have. -/
inductive PyErr where
  | valueError
  | attributeError
deriving DecidableEq, Repr

/-- First-appearance-ordered distinct values: embeds `df['bank'].unique()`
(pandas `unique` returns the distinct values in order of first
appearance). -/
def uniqueGo (seen : List String) : List String → List String
  | [] => []
  | b :: bs =>
    if b ∈ seen then uniqueGo seen bs else b :: uniqueGo (b :: seen) bs

def uniqueFirst (l : List String) : List String :=
  uniqueGo [] l

theorem mem_uniqueGo (l : List String) :
    ∀ seen b, b ∈ uniqueGo seen l ↔ (b ∈ l ∧ b ∉ seen) := by
  induction l with
  | nil => simp [uniqueGo]
  | cons x xs ih =>
    intro seen b
    unfold uniqueGo
    by_cases h : x ∈ seen
    · rw [if_pos h, ih seen b]
      constructor
      · rintro ⟨hb, hn⟩; exact ⟨List.mem_cons_of_mem _ hb, hn⟩
      · rintro ⟨hb, hn⟩
        rcases List.mem_cons.mp hb with rfl | hb'
        · exact absurd h hn
        · exact ⟨hb', hn⟩
    · rw [if_neg h]
      constructor
      · intro hb
        rcases List.mem_cons.mp hb with rfl | hb'
        · exact ⟨List.mem_cons_self _ _, h⟩
        · obtain ⟨h1, h2⟩ := (ih _ b).mp hb'
          exact ⟨List.mem_cons_of_mem _ h1,
            fun hs => h2 (List.mem_cons_of_mem _ hs)⟩
      · rintro ⟨hb, hn⟩
        rcases List.mem_cons.mp hb with rfl | hb'
        · exact List.mem_cons_self _ _
        · by_cases hbx : b = x
          · exact hbx ▸ List.mem_cons_self _ _
          · exact List.mem_cons_of_mem _ ((ih _ b).mpr
              ⟨hb', by simp [hbx, hn]⟩)

theorem uniqueGo_nodup (l : List String) :
    ∀ seen, (uniqueGo seen l).Nodup := by
  induction l with
  | nil => simp [uniqueGo]
  | cons x xs ih =>
    intro seen
    unfold uniqueGo
    by_cases h : x ∈ seen
    · simpa [if_pos h] using ih seen
    · rw [if_neg h]
      refine List.nodup_cons.mpr ⟨?_, ih _⟩
      intro hmem
      exact ((mem_uniqueGo xs _ x).mp hmem).2 (List.mem_cons_self _ _)

theorem mem_uniqueFirst (l : List String) (b : String) :
    b ∈ uniqueFirst l ↔ b ∈ l := by
  simp [uniqueFirst, mem_uniqueGo]

/-- Modelled from pandas `DataFrame.sample(n=..., random_state=42)`:
a deterministic pseudo-random selection of `n` distinct rows from the
pool, driven by a linear-congruential generator seeded with the fixed
`random_state`. Being a pure function of (seed, n, pool), it returns the
same sample for the same seed, input ordering and size. -/
def sampleSeeded (seed : Nat) : Nat → List PRow → List PRow
  | 0, _ => []
  | _ + 1, [] => []
  | n + 1, p :: ps =>
    (p :: ps).getD (seed % (ps.length + 1)) p ::
      sampleSeeded (seed * 1103515245 + 12345) n
        ((p :: ps).eraseIdx (seed % (ps.length + 1)))

theorem length_sampleSeeded (n : Nat) :
    ∀ seed pool, n ≤ pool.length → (sampleSeeded seed n pool).length = n := by
  induction n with
  | zero => intro seed pool _; rfl
  | succ m ih =>
    intro seed pool hle
    match pool with
    | [] => simp at hle
    | p :: ps =>
      have hlt : seed % (ps.length + 1) < (p :: ps).length := by
        simp only [List.length_cons]
        exact Nat.mod_lt _ (by omega)
      have herase : ((p :: ps).eraseIdx (seed % (ps.length + 1))).length
          = ps.length := by
        rw [List.length_eraseIdx_of_lt hlt]
        simp
      have hm : m ≤ ps.length := by
        simp only [List.length_cons] at hle
        omega
      simp only [sampleSeeded, List.length_cons]
      rw [ih _ _ (by rw [herase]; exact hm)]

theorem mem_sampleSeeded (n : Nat) :
    ∀ seed pool x, x ∈ sampleSeeded seed n pool → x ∈ pool := by
  induction n with
  | zero => intro seed pool x hx; simp [sampleSeeded] at hx
  | succ m ih =>
    intro seed pool x hx
    match pool with
    | [] => simp [sampleSeeded] at hx
    | p :: ps =>
      simp only [sampleSeeded] at hx
      rcases List.mem_cons.mp hx with rfl | hx'
      · have hlt : seed % (ps.length + 1) < (p :: ps).length := by
          simp only [List.length_cons]
          exact Nat.mod_lt _ (by omega)
        rw [List.getD_eq_getElem _ _ hlt]
        exact List.getElem_mem hlt
      · exact List.eraseIdx_subset _ _ (ih _ _ _ hx')

/-- One iteration of the balancing loop: the rows of one bank, sampled
down to `target_count` when the bank has more rows than the target, and
kept whole otherwise (the script only prints a warning for under-target
banks). -/
def balanceChunk (df : List PRow) (target_count : Nat) (bank : String) :
    List PRow :=
  let bank_reviews := df.filter (fun r => r.bank == bank)
  if target_count < bank_reviews.length then
    sampleSeeded 42 target_count bank_reviews
  else bank_reviews

/-- Embeds `balance_reviews(df, target_count)`: iterate over the bank
values in first-appearance order (`df['bank'].unique()`), build each
bank's balanced chunk, and concatenate the chunks with
`pd.concat(balanced_dfs)`. On an empty input frame the loop never runs,
`balanced_dfs` is empty, and `pd.concat([])` raises
`ValueError: No objects to concatenate`, which propagates out of the
function. -/
def balance_reviews (df : List PRow) (target_count : Nat) :
    Except PyErr (List PRow) :=
  let balanced_dfs :=
    (uniqueFirst (df.map (·.bank))).map (balanceChunk df target_count)
  if balanced_dfs.isEmpty then Except.error PyErr.valueError
  else Except.ok balanced_dfs.flatten

/-- The number of reviews of bank `b` in a collection. -/
def bankCount (b : String) (df : List PRow) : Nat :=
  (df.filter (fun r => r.bank == b)).length

theorem mem_balanceChunk_bank (df : List PRow) (t : Nat) (b' : String) :
    ∀ r ∈ balanceChunk df t b', r.bank = b' := by
  intro r hr
  unfold balanceChunk at hr
  by_cases h : t < (df.filter (fun r => r.bank == b')).length
  · rw [if_pos h] at hr
    have := mem_sampleSeeded _ _ _ _ hr
    simpa using (List.mem_filter.mp this).2
  · rw [if_neg h] at hr
    simpa using (List.mem_filter.mp hr).2

theorem length_filter_balanceChunk_self (df : List PRow) (t : Nat)
    (b : String) :
    ((balanceChunk df t b).filter (fun r => r.bank == b)).length =
      if t < bankCount b df then t else bankCount b df := by
  have hall : (balanceChunk df t b).filter (fun r => r.bank == b) =
      balanceChunk df t b := by
    apply List.filter_eq_self.mpr
    intro r hr
    simp [mem_balanceChunk_bank df t b r hr]
  rw [hall]
  unfold balanceChunk bankCount
  by_cases h : t < (df.filter (fun r => r.bank == b)).length
  · rw [if_pos h, if_pos h]
    exact length_sampleSeeded _ _ _ (Nat.le_of_lt h)
  · rw [if_neg h, if_neg h]

theorem filter_balanceChunk_ne (df : List PRow) (t : Nat) (b b' : String)
    (hne : b' ≠ b) :
    (balanceChunk df t b').filter (fun r => r.bank == b) = [] := by
  apply List.filter_eq_nil_iff.mpr
  intro r hr
  have := mem_balanceChunk_bank df t b' r hr
  simp [this, hne]

theorem sum_map_eq_of_single (b : String) (f : String → Nat) :
    ∀ bs : List String, bs.Nodup → b ∈ bs →
      (∀ b' ∈ bs, b' ≠ b → f b' = 0) → (bs.map f).sum = f b := by
  intro bs
  induction bs with
  | nil => intro _ hmem _; exact absurd hmem (List.not_mem_nil b)
  | cons x xs ih =>
    intro hnd hmem hzero
    simp only [List.map_cons, List.sum_cons]
    by_cases hxb : x = b
    · subst hxb
      have hnotin : x ∉ xs := (List.nodup_cons.mp hnd).1
      have hsum : (xs.map f).sum = 0 := by
        apply List.sum_eq_zero
        intro y hy
        obtain ⟨b', hb', rfl⟩ := List.mem_map.mp hy
        exact hzero b' (List.mem_cons_of_mem _ hb')
          (fun h => hnotin (h ▸ hb'))
      omega
    · have hmem' : b ∈ xs := by
        rcases List.mem_cons.mp hmem with h | h
        · exact absurd h.symm hxb
        · exact h
      rw [hzero x (List.mem_cons_self _ _) hxb,
        ih (List.nodup_cons.mp hnd).2 hmem'
          (fun b' hb' => hzero b' (List.mem_cons_of_mem _ hb'))]
      omega

theorem balanceFlatten_count (df : List PRow) (target_count : Nat)
    (b : String) :
    bankCount b (((uniqueFirst (df.map (·.bank))).map
        (balanceChunk df target_count)).flatten) =
      if target_count < bankCount b df then target_count
      else bankCount b df := by
  have hgoal : bankCount b (((uniqueFirst (df.map (·.bank))).map
        (balanceChunk df target_count)).flatten) =
      ((uniqueFirst (df.map (·.bank))).map
        (fun b' => ((balanceChunk df target_count b').filter
          (fun r => r.bank == b)).length)).sum := by
    unfold bankCount
    rw [List.filter_flatten, List.length_flatten, List.map_map, List.map_map]
    rfl
  rw [hgoal]
  by_cases hmem : b ∈ uniqueFirst (df.map (·.bank))
  · have hsingle := sum_map_eq_of_single b
      (fun b' => ((balanceChunk df target_count b').filter
        (fun r => r.bank == b)).length)
      (uniqueFirst (df.map (·.bank))) (uniqueGo_nodup _ []) hmem
      (fun b' _ hne => by
        show ((balanceChunk df target_count b').filter
          (fun r => r.bank == b)).length = 0
        rw [filter_balanceChunk_ne df target_count b b' hne]
        rfl)
    rw [hsingle]
    exact length_filter_balanceChunk_self df target_count b
  · have hzero : bankCount b df = 0 := by
      unfold bankCount
      rw [List.filter_eq_nil_iff.mpr]
      · rfl
      · intro r hr
        simp only [beq_iff_eq]
        intro hb
        exact hmem ((mem_uniqueFirst _ _).mpr
          (List.mem_map.mpr ⟨r, hr, hb⟩))
    rw [hzero, if_neg (by omega)]
    apply List.sum_eq_zero
    intro y hy
    obtain ⟨b', hb', rfl⟩ := List.mem_map.mp hy
    have hne : b' ≠ b := fun h => hmem (h ▸ hb')
    rw [filter_balanceChunk_ne df target_count b b' hne]
    rfl

/-- C7 counterexample: on the empty input collection the Balancer does
not produce per-group outputs at all — the loop builds no chunks and
`pd.concat([])` raises `ValueError`, so the claimed count equation has
no output to hold of. -/
theorem C7_balancer_counterexample :
    balance_reviews [] 400 = Except.error PyErr.valueError := rfl

/-- C7 (amended): on every non-empty input collection the Balancer
succeeds, and for every group its output count is `target_count` when
the group's input count exceeds `target_count` (a seeded deterministic
sample), and the group's full input count otherwise. -/
theorem C7_balancer_bound (df : List PRow) (target_count : Nat)
    (b : String) (hne : df ≠ []) :
    ∃ out : List PRow, balance_reviews df target_count = Except.ok out ∧
      bankCount b out =
        if target_count < bankCount b df then target_count
        else bankCount b df := by
  have hbanks : uniqueFirst (df.map (·.bank)) ≠ [] := by
    cases df with
    | nil => exact absurd rfl hne
    | cons r rs =>
      rw [show (r :: rs).map (·.bank) = r.bank :: rs.map (·.bank) from rfl]
      unfold uniqueFirst uniqueGo
      rw [if_neg (List.not_mem_nil r.bank)]
      simp
  have hch : ((uniqueFirst (df.map (·.bank))).map
      (balanceChunk df target_count)).isEmpty = false := by
    rw [Bool.eq_false_iff]
    intro h
    rw [List.isEmpty_iff] at h
    exact hbanks (List.map_eq_nil_iff.mp h)
  refine ⟨((uniqueFirst (df.map (·.bank))).map
      (balanceChunk df target_count)).flatten, ?_, ?_⟩
  · simp only [balance_reviews]
    rw [hch]
    simp
  · exact balanceFlatten_count df target_count b

/-- Witness for the amended C7 at a concrete input: a one-review frame
succeeds and keeps its single under-target group whole. -/
theorem C7_balancer_bound_witness :
    ∃ out : List PRow,
      balance_reviews [⟨"nice app", 5, "2024-01-02", "CBE", "Google Play"⟩]
        400 = Except.ok out ∧
      bankCount "CBE" out =
        if 400 < bankCount "CBE"
            [⟨"nice app", 5, "2024-01-02", "CBE", "Google Play"⟩]
        then 400
        else bankCount "CBE"
          [⟨"nice app", 5, "2024-01-02", "CBE", "Google Play"⟩] :=
  C7_balancer_bound [⟨"nice app", 5, "2024-01-02", "CBE", "Google Play"⟩]
    400 "CBE" (by decide)

/-! ### Language detection and translation
(`detect_language`, `translate_amharic`) -/

/-- Exceptions raised by the external collaborators of the translation
stage: the statistical language detector (`langdetect.detect` raising
`LangDetectException`) and the translation service (`deep_translator`
raising on transient failures). -/
inductive ExtErr where
  | langDetectException
  | requestError
deriving DecidableEq, Repr

/-- `True` iff the character lies in the Ethiopic Unicode block matched
by the regex `[ሀ-፿]`. -/
def isEthiopic (c : Char) : Bool :=
  0x1200 ≤ c.toNat && c.toNat ≤ 0x137F

/-- Embeds `bool(re.search(r'[ሀ-፿]', text))`. -/
def hasEthiopic (text : String) : Bool :=
  text.data.any isEthiopic

/-- A Python whitespace character (the ASCII whitespace set used by
`str.strip`, `str.split` and the regex class `\s` on ASCII text). -/
def isPySpaceChar (c : Char) : Bool :=
  c = ' ' || c = '\t' || c = '\n' || c = '\r' ||
    c = Char.ofNat 0x0b || c = Char.ofNat 0x0c

/-- Embeds the guard `text.strip() == ''`: the text strips to the empty
string iff every character is whitespace. -/
def isBlank (text : String) : Bool :=
  text.data.all isPySpaceChar

/-- Embeds `detect_language(text)`: blank text is `'unknown'`; inside the
`try` block, a text containing an Ethiopic character short-circuits to
`'am'`, otherwise the statistical detector `det` (the external
`langdetect.detect`, a parameter of the embedding) is consulted; the
`except LangDetectException` handler re-tests for Ethiopic script and
falls back to `'am'` or `'unknown'`. -/
def detect_language (det : String → Except ExtErr String)
    (text : String) : String :=
  if isBlank text then "unknown"
  else
    match (if hasEthiopic text then Except.ok "am" else det text) with
    | .ok lang => lang
    | .error _ => if hasEthiopic text then "am" else "unknown"

/-- The bounded retry loop `for attempt in range(3)` of
`translate_amharic`, returning the resulting text together with the
number of translation attempts made. `tr n` is the external
`translator.translate(text)` call on attempt number `n`: an `.ok` value
is the text the service returned (`None` from the service is modelled as
the empty string — both are falsy in the `if translated:` test, which
then returns the original text), and `.error` models a raised exception,
after which the loop sleeps one time unit and retries. -/
def attemptLoop (tr : Nat → Except ExtErr String) (text : String) :
    Nat → Nat → String × Nat
  | made, 0 => (text, made)
  | made, remaining + 1 =>
    match tr made with
    | .ok translated =>
      if translated ≠ "" then (translated, made + 1) else (text, made + 1)
    | .error _ => attemptLoop tr text (made + 1) remaining

/-- Embeds `translate_amharic(text, translator)`: blank text returns
`''`; text whose detected language is `'am'` goes through the 3-attempt
retry loop, falling back to the original text on exhaustion; any other
text is returned unchanged. The second component counts the translation
attempts that were made. -/
def translate_amharic (det : String → Except ExtErr String)
    (tr : Nat → Except ExtErr String) (text : String) : String × Nat :=
  if isBlank text then ("", 0)
  else if detect_language det text = "am" then attemptLoop tr text 0 3
  else (text, 0)

theorem not_isBlank_of_hasEthiopic (text : String)
    (h : hasEthiopic text = true) : isBlank text = false := by
  unfold hasEthiopic at h
  obtain ⟨c, hc, hceth⟩ := List.any_eq_true.mp h
  unfold isBlank
  apply List.all_eq_false.mpr
  refine ⟨c, hc, ?_⟩
  simp only [isEthiopic, Bool.and_eq_true, decide_eq_true_eq] at hceth
  have h1 : 0x1200 ≤ c.toNat := hceth.1
  have hne : ∀ d : Char, d.toNat < 0x1200 → c ≠ d := by
    intro d hd he
    rw [he] at h1
    omega
  simp only [isPySpaceChar, Bool.or_eq_true, decide_eq_true_eq, not_or]
  exact ⟨⟨⟨⟨⟨hne ' ' (by decide), hne '\t' (by decide)⟩,
    hne '\n' (by decide)⟩, hne '\r' (by decide)⟩,
    hne (Char.ofNat 0x0b) (by decide)⟩, hne (Char.ofNat 0x0c) (by decide)⟩

/-- C6: script evidence overrides statistical detection: any text with a
code point in the Ethiopic block is classified `'am'` no matter what the
statistical detector returns; and whenever the detector raises on a text
with no Ethiopic code point, `detect_language` returns `'unknown'`. -/
theorem C6_detect_language (det : String → Except ExtErr String)
    (text : String) :
    (hasEthiopic text = true → detect_language det text = "am") ∧
      (hasEthiopic text = false → (∃ e, det text = Except.error e) →
        detect_language det text = "unknown") := by
  constructor
  · intro heth
    unfold detect_language
    rw [not_isBlank_of_hasEthiopic text heth]
    simp [heth]
  · rintro hno ⟨e, herr⟩
    unfold detect_language
    by_cases hb : isBlank text
    · simp [hb]
    · simp [hb, hno, herr]

/-- Witness for C6 at concrete inputs: an Ethiopic text is classified
`'am'` even though the detector answers `'en'`, and a Latin text on which
the detector raises is classified `'unknown'`. -/
theorem C6_detect_language_witness :
    detect_language (fun _ => Except.ok "en") "ሰላም" = "am" ∧
      detect_language (fun _ => Except.error ExtErr.langDetectException)
        "hello" = "unknown" :=
  ⟨(C6_detect_language (fun _ => Except.ok "en") "ሰላም").1 (by decide),
    (C6_detect_language (fun _ => Except.error ExtErr.langDetectException)
      "hello").2 (by decide) ⟨ExtErr.langDetectException, rfl⟩⟩

/-- C1: translation exhaustion is non-fatal: when a review's text is
classified as the source language `'am'` and every call to the external
translation service raises, `translate_amharic` makes exactly 3
translation attempts and then returns the original text unchanged. -/
theorem C1_translation_exhaustion (det : String → Except ExtErr String)
    (tr : Nat → Except ExtErr String) (text : String)
    (hm : detect_language det text = "am")
    (hfail : ∀ n, ∃ e, tr n = Except.error e) :
    translate_amharic det tr text = (text, 3) := by
  have hb : isBlank text = false := by
    by_contra h
    rw [Bool.not_eq_false] at h
    unfold detect_language at hm
    rw [if_pos h] at hm
    exact absurd hm (by decide)
  unfold translate_amharic
  rw [hb, if_neg (by simp), if_pos hm]
  obtain ⟨e0, h0⟩ := hfail 0
  obtain ⟨e1, h1⟩ := hfail 1
  obtain ⟨e2, h2⟩ := hfail 2
  simp [attemptLoop, h0, h1, h2]

/-- Witness for C1 at a concrete input: an Ethiopic review with an
always-raising translator comes back unchanged with 3 attempts made. -/
theorem C1_translation_exhaustion_witness :
    translate_amharic (fun _ => Except.ok "en")
      (fun _ => Except.error ExtErr.requestError) "ሰላም" = ("ሰላም", 3) :=
  C1_translation_exhaustion (fun _ => Except.ok "en")
    (fun _ => Except.error ExtErr.requestError) "ሰላም"
    ((C6_detect_language (fun _ => Except.ok "en") "ሰላም").1 (by decide))
    (fun _ => ⟨ExtErr.requestError, rfl⟩)

/-- C3 counterexample: a whitespace-only review text is not classified
`'am'`, yet the stage does not return it unchanged — it returns the empty
string. -/
theorem C3_counterexample :
    detect_language (fun _ => Except.ok "en") " " ≠ "am" ∧
      (translate_amharic (fun _ => Except.ok "en")
        (fun _ => Except.error ExtErr.requestError) " ").1 ≠ " " := by
  constructor
  · decide
  · decide

/-- C3 (amended): every review text that neither strips to the empty
string nor is classified `'am'` passes through unchanged (with no
translation attempt); blank texts are instead replaced by `''`. -/
theorem C3_passthrough (det : String → Except ExtErr String)
    (tr : Nat → Except ExtErr String) (text : String)
    (hblank : isBlank text = false)
    (hlang : detect_language det text ≠ "am") :
    translate_amharic det tr text = (text, 0) := by
  unfold translate_amharic
  rw [hblank, if_neg (by simp), if_neg hlang]

/-- Witness for the amended C3 at a concrete input: an English review
passes through unchanged. -/
theorem C3_passthrough_witness :
    translate_amharic (fun _ => Except.ok "en")
      (fun _ => Except.error ExtErr.requestError) "great app" =
      ("great app", 0) :=
  C3_passthrough (fun _ => Except.ok "en")
    (fun _ => Except.error ExtErr.requestError) "great app"
    (by decide) (by decide)

/-! ### DateNormalizer (`normalize_dates`) -/

/-- Modelled from pandas `pd.to_datetime` on a date string: accepts
`YYYY-MM-DD` and `YYYY/MM/DD` with a plausible month and day, and fails
on anything else. -/
def parseDate (s : String) : Option (Nat × Nat × Nat) :=
  match s.data with
  | [y1, y2, y3, y4, sep1, m1, m2, sep2, d1, d2] =>
    if ((sep1 = '-' && sep2 = '-') || (sep1 = '/' && sep2 = '/')) &&
        [y1, y2, y3, y4, m1, m2, d1, d2].all Char.isDigit then
      let y := ((y1.toNat * 10 + y2.toNat) * 10 + y3.toNat) * 10 + y4.toNat
        - 1111 * 48
      let m := m1.toNat * 10 + m2.toNat - 11 * 48
      let d := d1.toNat * 10 + d2.toNat - 11 * 48
      if 1 ≤ m && m ≤ 12 && 1 ≤ d && d ≤ 31 then some (y, m, d) else none
    else none
  | _ => none

/-- `strftime('%Y-%m-%d')`: format a parsed date back as the canonical
zero-padded `YYYY-MM-DD` string. -/
def formatDate (d : Nat × Nat × Nat) : String :=
  let pad2 := fun n => if n < 10 then "0" ++ toString n else toString n
  let pad4 := fun n =>
    if n < 10 then "000" ++ toString n
    else if n < 100 then "00" ++ toString n
    else if n < 1000 then "0" ++ toString n
    else toString n
  pad4 d.1 ++ "-" ++ pad2 d.2.1 ++ "-" ++ pad2 d.2.2

/-- `pd.to_datetime` applied to a whole column with the default
`errors='raise'`: parses every entry, raising `ValueError` as soon as any
entry is unparsable. -/
def to_datetime_column (dates : List String) :
    Except PyErr (List (Nat × Nat × Nat)) :=
  match dates.mapM parseDate with
  | some ds => Except.ok ds
  | none => Except.error PyErr.valueError

/-- Modelled from pandas: `pd.to_datetime(x, errors='coerce')` on a
scalar returns a `Timestamp` (or `NaT` for unparsable input), and
neither type has a `.notna` method, so the expression
`pd.to_datetime(x, errors='coerce').notna()` used in the fallback lambda
raises `AttributeError` for every input. -/
def coerce_notna (_date : String) : Except PyErr Bool :=
  Except.error PyErr.attributeError

/-- Embeds `normalize_dates(df)`: first try
`pd.to_datetime(df['date']).dt.strftime('%Y-%m-%d')` on the whole
column; if that raises `ValueError`, the `except` clause recomputes a
keep-mask with `df['date'].apply(lambda x: pd.to_datetime(x,
errors='coerce').notna())` (whose first evaluation raises), filters the
frame by the mask and re-parses. Exceptions escaping the function are
returned as `Except.error`. -/
def normalize_dates (df : List PRow) : Except PyErr (List PRow) :=
  match to_datetime_column (df.map (·.date)) with
  | Except.ok ds =>
    Except.ok ((df.zip ds).map (fun p => { p.1 with date := formatDate p.2 }))
  | Except.error _ =>
    match df.mapM (fun r => coerce_notna r.date) with
    | Except.error e => Except.error e
    | Except.ok mask =>
      let kept := ((df.zip mask).filter (·.2)).map (·.1)
      match to_datetime_column (kept.map (·.date)) with
      | Except.error e => Except.error e
      | Except.ok ds =>
        Except.ok ((kept.zip ds).map
          (fun p => { p.1 with date := formatDate p.2 }))

/-- C2 (code bug): on a collection containing one well-formed and one
malformed date, `normalize_dates` does not drop the malformed review —
the whole-column parse raises `ValueError`, and the recovery lambda of
the `except` clause then raises `AttributeError` (scalar
`pd.to_datetime(..., errors='coerce')` results have no `.notna` method),
which propagates out of the stage. -/
theorem C2_normalize_dates_raises :
    normalize_dates
      [⟨"good app", 5, "2024-01-02", "CBE", "Google Play"⟩,
        ⟨"bad date", 1, "not a date", "CBE", "Google Play"⟩] =
      Except.error PyErr.attributeError ∧
      parseDate "2024-01-02" = some (2024, 1, 2) ∧
      parseDate "not a date" = none := by
  refine ⟨rfl, by decide, by decide⟩

/-! ### KeywordExtractor (`thematic_analysis.extract_keywords`) -/

/-- A review record as it flows through `thematic_analysis.py`: the
`review` text, its `bank`, the `processed_text` prepared for TF-IDF, and
the accumulated `themes` string. -/
structure TRow where
  review : String
  bank : String
  processed_text : String
  themes : String
deriving DecidableEq, Repr

/-- A regex word character: `\w` over the ASCII range the texts these
scripts process use. -/
def isWordChar (c : Char) : Bool :=
  ('a' ≤ c && c ≤ 'z') || ('A' ≤ c && c ≤ 'Z') ||
    ('0' ≤ c && c ≤ '9') || c = '_'

/-- Worker for sklearn's token pattern: the maximal word-character runs
of a character list, accumulating the current run in reverse. -/
def tokenRunsGo (cur : List Char) : List Char → List (List Char)
  | [] => if cur = [] then [] else [cur.reverse]
  | c :: cs =>
    if isWordChar c then tokenRunsGo (c :: cur) cs
    else if cur = [] then tokenRunsGo [] cs
    else cur.reverse :: tokenRunsGo [] cs

/-- Modelled from sklearn `TfidfVectorizer`'s analyzer: lowercase the
document and extract the tokens of the default `token_pattern`
`\b\w\w+\b` — the maximal word-character runs of length at least 2. -/
def sklearnTokenize (doc : String) : List String :=
  ((tokenRunsGo [] (doc.data.map Char.toLower)).filter
    (fun w => 2 ≤ w.length)).map String.mk

/-- Modelled from sklearn's built-in `ENGLISH_STOP_WORDS` frozenset,
selected by `stop_words='english'`. -/
def sklearnStopWords : List String :=
  ["a", "about", "above", "across", "after", "afterwards", "again",
   "against", "all", "almost", "alone", "along", "already", "also",
   "although", "always", "am", "among", "amongst", "amoungst", "amount",
   "an", "and", "another", "any", "anyhow", "anyone", "anything",
   "anyway", "anywhere", "are", "around", "as", "at", "back", "be",
   "became", "because", "become", "becomes", "becoming", "been",
   "before", "beforehand", "behind", "being", "below", "beside",
   "besides", "between", "beyond", "bill", "both", "bottom", "but",
   "by", "call", "can", "cannot", "cant", "co", "con", "could",
   "couldnt", "cry", "de", "describe", "detail", "do", "done", "down",
   "due", "during", "each", "eg", "eight", "either", "eleven", "else",
   "elsewhere", "empty", "enough", "etc", "even", "ever", "every",
   "everyone", "everything", "everywhere", "except", "few", "fifteen",
   "fifty", "fill", "find", "fire", "first", "five", "for", "former",
   "formerly", "forty", "found", "four", "from", "front", "full",
   "further", "get", "give", "go", "had", "has", "hasnt", "have", "he",
   "hence", "her", "here", "hereafter", "hereby", "herein", "hereupon",
   "hers", "herself", "him", "himself", "his", "how", "however",
   "hundred", "i", "ie", "if", "in", "inc", "indeed", "interest",
   "into", "is", "it", "its", "itself", "keep", "last", "latter",
   "latterly", "least", "less", "ltd", "made", "many", "may", "me",
   "meanwhile", "might", "mill", "mine", "more", "moreover", "most",
   "mostly", "move", "much", "must", "my", "myself", "name", "namely",
   "neither", "never", "nevertheless", "next", "nine", "no", "nobody",
   "none", "noone", "nor", "not", "nothing", "now", "nowhere", "of",
   "off", "often", "on", "once", "one", "only", "onto", "or", "other",
   "others", "otherwise", "our", "ours", "ourselves", "out", "over",
   "own", "part", "per", "perhaps", "please", "put", "rather", "re",
   "same", "see", "seem", "seemed", "seeming", "seems", "serious",
   "several", "she", "should", "show", "side", "since", "sincere",
   "six", "sixty", "so", "some", "somehow", "someone", "something",
   "sometime", "sometimes", "somewhere", "still", "such", "system",
   "take", "ten", "than", "that", "the", "their", "them", "themselves",
   "then", "thence", "there", "thereafter", "thereby", "therefore",
   "therein", "thereupon", "these", "they", "thick", "thin", "third",
   "this", "those", "though", "three", "through", "throughout", "thru",
   "thus", "to", "together", "too", "top", "toward", "towards",
   "twelve", "twenty", "two", "un", "under", "until", "up", "upon",
   "us", "very", "via", "was", "we", "well", "were", "what", "whatever",
   "when", "whence", "whenever", "where", "whereafter", "whereas",
   "whereby", "wherein", "whereupon", "wherever", "whether", "which",
   "while", "whither", "who", "whoever", "whole", "whom", "whose",
   "why", "will", "with", "within", "without", "would", "yet", "you",
   "your", "yours", "yourself", "yourselves"]

/-- Stop-word pruning of a token sequence, applied before n-gram
generation as the vectorizer does. -/
def removeStop (tokens : List String) : List String :=
  tokens.filter (fun t => !sklearnStopWords.contains t)

/-- The bigrams of consecutive tokens, space-joined. -/
def bigrams : List String → List String
  | a :: b :: rest => (a ++ " " ++ b) :: bigrams (b :: rest)
  | _ => []

/-- The candidate features one document contributes under
`ngram_range=(1, 2)`: its unigrams and bigrams. -/
def docNgrams (tokens : List String) : List String :=
  tokens ++ bigrams tokens

/-- One group's documents: the `processed_text` column of the bank's
rows (`df[df['bank'] == bank]['processed_text']`). -/
def groupDocs (df : List TRow) (bank : String) : List String :=
  (df.filter (fun r => r.bank == bank)).map (·.processed_text)

/-- The group's documents as n-gram occurrence lists (tokenized,
stop-word-pruned, with unigrams and bigrams). -/
def groupNgramDocs (df : List TRow) (bank : String) :
    List (List String) :=
  (groupDocs df bank).map
    (fun d => docNgrams (removeStop (sklearnTokenize d)))

/-- Total occurrences of a term across the group's documents: the
corpus term frequency that `max_features` ranks by. -/
def corpusCount (ngramDocs : List (List String)) (t : String) : Nat :=
  (ngramDocs.map (fun d => d.count t)).sum

/-- Modelled from sklearn's `max_features` pruning: when the vocabulary
exceeds the cap, keep the `maxF` terms with the highest corpus term
frequency (the implementation leaves frequency ties unspecified; the
model keeps ties in alphabetical order) and preserve the alphabetical
ordering of the survivors. -/
def limitFeatures (ngramDocs : List (List String)) (vocab : List String)
    (maxF : Nat) : List String :=
  if vocab.length ≤ maxF then vocab
  else
    let keep := (((vocab.zip (List.range vocab.length)).mergeSort
      (fun a b => decide
        (corpusCount ngramDocs b.1 < corpusCount ngramDocs a.1 ∨
          (corpusCount ngramDocs a.1 = corpusCount ngramDocs b.1 ∧
            a.2 ≤ b.2)))).take maxF).map (·.1)
    vocab.filter (fun t => keep.contains t)

/-- The group's feature names (`get_feature_names_out()`): the distinct
n-grams of the group's documents in alphabetical order, pruned to the
`max_features=100` cap. -/
def groupVocab (df : List TRow) (bank : String) : List String :=
  limitFeatures (groupNgramDocs df bank)
    ((uniqueFirst (groupNgramDocs df bank).flatten).mergeSort
      (fun a b => decide (a ≤ b))) 100

/-- Modelled from the spec: the term-frequency–inverse-document-
frequency weight of one term, averaged across the group's documents
(`tfidf_matrix.mean(axis=0).A1`). Term frequency is the raw occurrence
count within a document, and the inverse document frequency rewards
corpus rarity as `(1 + n) / (1 + df)`. sklearn computes these weights
in floating point (with `idf = ln((1 + n) / (1 + df)) + 1` and l2 row
normalization), which has no exact shallow embedding; the model keeps
the computation in exact rationals. -/
def meanTfidf (ngramDocs : List (List String)) (t : String) : ℚ :=
  let n : ℚ := ngramDocs.length
  let idf : ℚ :=
    (1 + n) / (1 + ((ngramDocs.filter (fun d => d.contains t)).length : ℚ))
  ((ngramDocs.map (fun d => (d.count t : ℚ) * idf)).sum) / n

/-- The comparison used to embed Python's stable
`sorted(keywords, key=lambda x: x[1], reverse=True)`: each `(term,
weight)` pair is tagged with its original position, and pairs are
ordered by descending weight with ties broken by ascending original
position — exactly the stable descending sort Python guarantees. -/
def descWeightLE (a b : (String × ℚ) × Nat) : Bool :=
  decide (b.1.2 < a.1.2 ∨ (a.1.2 = b.1.2 ∧ a.2 ≤ b.2))

/-- Python's `sorted(l, key=lambda x: x[1], reverse=True)` on (term,
weight) pairs. -/
def pySortedDesc (l : List (String × ℚ)) : List (String × ℚ) :=
  ((l.zip (List.range l.length)).mergeSort descWeightLE).map (·.1)


/-- The body of one iteration of the `extract_keywords` loop: a group
with fewer than 2 reviews gets the empty keyword list; a group whose
documents yield no vocabulary term makes `fit_transform` raise
`ValueError` (`empty vocabulary; perhaps the documents only contain
stop words`), which the script does not catch; otherwise the (term,
mean TF-IDF score) pairs are sorted by descending score with Python's
stable `sorted` and the terms of the first 20 pairs are kept. -/
def keywordsForBank (df : List TRow) (bank : String) :
    Except PyErr (List String) :=
  if (groupDocs df bank).length < 2 then Except.ok []
  else if (uniqueFirst (groupNgramDocs df bank).flatten).isEmpty then
    Except.error PyErr.valueError
  else
    let names := groupVocab df bank
    let keywords :=
      names.zip (names.map (meanTfidf (groupNgramDocs df bank)))
    Except.ok (((pySortedDesc keywords).take 20).map (·.1))

/-- The `for bank in df['bank'].unique()` loop of `extract_keywords`:
an uncaught exception in any group's iteration aborts the whole
loop. -/
def extractLoop (df : List TRow) :
    List String → Except PyErr (List (String × List String))
  | [] => Except.ok []
  | b :: bs =>
    match keywordsForBank df b with
    | Except.error e => Except.error e
    | Except.ok l =>
      match extractLoop df bs with
      | Except.error e => Except.error e
      | Except.ok rest => Except.ok ((b, l) :: rest)

/-- Embeds `extract_keywords(df, ngram_range, max_features)`: the
Python dict `keyword_dict`, keyed by bank in first-appearance order, is
modelled as an association list. -/
def extract_keywords (df : List TRow) :
    Except PyErr (List (String × List String)) :=
  extractLoop df (uniqueFirst (df.map (·.bank)))

theorem extractLoop_lookup (df : List TRow) :
    ∀ (bs : List String) (res : List (String × List String)),
      extractLoop df bs = Except.ok res →
      ∀ b ∈ bs, res.lookup b = (keywordsForBank df b).toOption := by
  intro bs
  induction bs with
  | nil => intro res _ b hb; exact absurd hb (List.not_mem_nil b)
  | cons x xs ih =>
    intro res h b hb
    unfold extractLoop at h
    cases hx : keywordsForBank df x with
    | error e =>
      rw [hx] at h
      exact Except.noConfusion h
    | ok lx =>
      rw [hx] at h
      cases hrest : extractLoop df xs with
      | error e =>
        rw [hrest] at h
        exact Except.noConfusion h
      | ok rest =>
        rw [hrest] at h
        simp only [Except.ok.injEq] at h
        subst h
        by_cases hbx : b = x
        · subst hbx
          simp [List.lookup, hx, Except.toOption]
        · rw [List.lookup, show (b == x) = false from by simpa using hbx]
          exact ih rest hrest b (by
            rcases List.mem_cons.mp hb with h' | h'
            · exact absurd h' hbx
            · exact h')

theorem strLE_trans (a b c : String) (h1 : decide (a ≤ b) = true)
    (h2 : decide (b ≤ c) = true) : decide (a ≤ c) = true := by
  simp only [decide_eq_true_eq] at h1 h2 ⊢
  exact le_trans h1 h2

theorem strLE_total (a b : String) :
    (decide (a ≤ b) || decide (b ≤ a)) = true := by
  simp only [Bool.or_eq_true, decide_eq_true_eq]
  exact le_total a b

theorem limitFeatures_sublist (nd : List (List String))
    (vocab : List String) (maxF : Nat) :
    (limitFeatures nd vocab maxF).Sublist vocab := by
  unfold limitFeatures
  by_cases h : vocab.length ≤ maxF
  · rw [if_pos h]
  · rw [if_neg h]
    exact List.filter_sublist _

theorem descWeightLE_trans (a b c : (String × ℚ) × Nat)
    (hab : descWeightLE a b) (hbc : descWeightLE b c) :
    descWeightLE a c := by
  simp only [descWeightLE, decide_eq_true_eq] at *
  rcases hab with h1 | ⟨h1, h1'⟩ <;> rcases hbc with h2 | ⟨h2, h2'⟩
  · exact Or.inl (h2.trans h1)
  · exact Or.inl (h2 ▸ h1)
  · exact Or.inl (h1 ▸ h2)
  · exact Or.inr ⟨h1.trans h2, h1'.trans h2'⟩

theorem descWeightLE_total (a b : (String × ℚ) × Nat) :
    descWeightLE a b || descWeightLE b a := by
  simp only [descWeightLE, Bool.or_eq_true, decide_eq_true_eq]
  rcases lt_trichotomy a.1.2 b.1.2 with h | h | h
  · exact Or.inr (Or.inl h)
  · rcases Nat.le_total a.2 b.2 with h' | h'
    · exact Or.inl (Or.inr ⟨h, h'⟩)
    · exact Or.inr (Or.inr ⟨h.symm, h'⟩)
  · exact Or.inl (Or.inl h)

/-- C4 counterexample: a bank with two reviews whose processed texts
are empty yields an empty vocabulary, so `extract_keywords` raises the
vectorizer's `ValueError` instead of returning a ranking for the
group. -/
theorem C4_keyword_extraction_counterexample :
    extract_keywords
        [⟨"", "CBE", "", ""⟩, ⟨"", "CBE", "", ""⟩] =
      Except.error PyErr.valueError ∧
      2 ≤ (groupDocs
        [⟨"", "CBE", "", ""⟩, ⟨"", "CBE", "", ""⟩] "CBE").length := by
  exact ⟨rfl, by decide⟩

/-- C4 (amended): for every bank present in the frame, the
`extract_keywords` loop body returns the empty list for a group with
fewer than 2 reviews; a larger group whose documents yield a non-empty
vocabulary gets the terms of the first 20 elements of an arrangement of
the (term, mean TF-IDF weight, original feature position) triples
sorted by descending mean weight with ties in original feature order —
and that original feature order is alphabetical; whenever the whole
loop completes, the dict maps the bank to exactly that per-group
result. -/
theorem C4_keyword_ranking (df : List TRow) (bank : String)
    (hmem : bank ∈ df.map (·.bank)) :
    (∀ res, extract_keywords df = Except.ok res →
      res.lookup bank = (keywordsForBank df bank).toOption) ∧
    ((groupDocs df bank).length < 2 →
      keywordsForBank df bank = Except.ok []) ∧
    (2 ≤ (groupDocs df bank).length →
      (uniqueFirst (groupNgramDocs df bank).flatten).isEmpty = false →
      (groupVocab df bank).Pairwise (fun a b => a ≤ b) ∧
      ∃ l : List String, keywordsForBank df bank = Except.ok l ∧
        ∃ perm : List ((String × ℚ) × Nat),
          (let names := groupVocab df bank
           let pairs := names.zip (names.map
             (meanTfidf (groupNgramDocs df bank)))
           List.Perm perm (pairs.zip (List.range pairs.length)) ∧
            perm.Pairwise (fun a b =>
              b.1.2 < a.1.2 ∨ (a.1.2 = b.1.2 ∧ a.2 ≤ b.2)) ∧
            l = (perm.take 20).map (·.1.1))) := by
  have hmem' : bank ∈ uniqueFirst (df.map (·.bank)) :=
    (mem_uniqueFirst _ _).mpr hmem
  refine ⟨?_, ?_, ?_⟩
  · intro res hres
    exact extractLoop_lookup df _ res hres bank hmem'
  · intro hlt
    unfold keywordsForBank
    rw [if_pos hlt]
  · intro hge hvoc
    have hnlt : ¬ (groupDocs df bank).length < 2 := by omega
    constructor
    · unfold groupVocab
      apply List.Pairwise.sublist (limitFeatures_sublist _ _ _)
      have hs := List.sorted_mergeSort strLE_trans strLE_total
        (uniqueFirst (groupNgramDocs df bank).flatten)
      exact hs.imp (fun hab => by simpa using hab)
    · refine ⟨((pySortedDesc ((groupVocab df bank).zip
        ((groupVocab df bank).map
          (meanTfidf (groupNgramDocs df bank))))).take 20).map (·.1),
        ?_, ?_⟩
      · unfold keywordsForBank
        rw [if_neg hnlt, if_neg (by simp [hvoc])]
      · refine ⟨_, List.mergeSort_perm _ descWeightLE, ?_, ?_⟩
        · refine (List.sorted_mergeSort descWeightLE_trans
            descWeightLE_total _).imp ?_
          intro a b hab
          simpa [descWeightLE] using hab
        · simp only [pySortedDesc, List.map_take, List.map_map]
          rfl

/-- Witness for the amended C4 at a concrete input: a two-review group
with a non-empty vocabulary. -/
theorem C4_keyword_ranking_witness :
    (∀ res, extract_keywords
        [⟨"good app", "CBE", "good app", ""⟩,
          ⟨"slow app", "CBE", "slow app", ""⟩] = Except.ok res →
      res.lookup "CBE" = (keywordsForBank
        [⟨"good app", "CBE", "good app", ""⟩,
          ⟨"slow app", "CBE", "slow app", ""⟩] "CBE").toOption) ∧
    ((groupDocs [⟨"good app", "CBE", "good app", ""⟩,
        ⟨"slow app", "CBE", "slow app", ""⟩] "CBE").length < 2 →
      keywordsForBank [⟨"good app", "CBE", "good app", ""⟩,
        ⟨"slow app", "CBE", "slow app", ""⟩] "CBE" = Except.ok []) ∧
    (2 ≤ (groupDocs [⟨"good app", "CBE", "good app", ""⟩,
        ⟨"slow app", "CBE", "slow app", ""⟩] "CBE").length →
      (uniqueFirst (groupNgramDocs
        [⟨"good app", "CBE", "good app", ""⟩,
          ⟨"slow app", "CBE", "slow app", ""⟩] "CBE").flatten).isEmpty
          = false →
      (groupVocab [⟨"good app", "CBE", "good app", ""⟩,
        ⟨"slow app", "CBE", "slow app", ""⟩] "CBE").Pairwise
          (fun a b => a ≤ b) ∧
      ∃ l : List String, keywordsForBank
          [⟨"good app", "CBE", "good app", ""⟩,
            ⟨"slow app", "CBE", "slow app", ""⟩] "CBE" = Except.ok l ∧
        ∃ perm : List ((String × ℚ) × Nat),
          (let names := groupVocab
            [⟨"good app", "CBE", "good app", ""⟩,
              ⟨"slow app", "CBE", "slow app", ""⟩] "CBE"
           let pairs := names.zip (names.map (meanTfidf (groupNgramDocs
             [⟨"good app", "CBE", "good app", ""⟩,
               ⟨"slow app", "CBE", "slow app", ""⟩] "CBE")))
           List.Perm perm (pairs.zip (List.range pairs.length)) ∧
            perm.Pairwise (fun a b =>
              b.1.2 < a.1.2 ∨ (a.1.2 = b.1.2 ∧ a.2 ≤ b.2)) ∧
            l = (perm.take 20).map (·.1.1))) :=
  C4_keyword_ranking
    [⟨"good app", "CBE", "good app", ""⟩,
      ⟨"slow app", "CBE", "slow app", ""⟩] "CBE" (by decide)

/-! ### ThemeClassifier (`cluster_keywords`, `assign_themes_to_reviews`) -/

/-- Python's substring containment `needle in hay`, on char lists. -/
def containsSub (needle hay : List Char) : Bool :=
  (List.range (hay.length + 1)).any
    (fun i => (hay.drop i).take needle.length == needle)

/-- The fixed rule table of `cluster_keywords`, in the priority order of
the Python `if/elif` chain: each theme name with its static trigger
substrings. -/
def themeRules : List (String × List String) :=
  [("Account Access Issues",
    ["login", "access", "password", "authentication", "account", "error"]),
   ("Transaction Performance",
    ["transfer", "payment", "transaction", "slow", "delay", "failed"]),
   ("User Interface & Experience",
    ["interface", "ui", "design", "easy", "navigation", "app"]),
   ("Customer Support",
    ["support", "service", "help", "response", "customer"])]

/-- The fixed theme taxonomy: the theme names of the rule table. -/
def taxonomy : List String := themeRules.map (·.1)

/-- The first theme (in priority order) one of whose trigger substrings
occurs in the lowercased keyword — the `if/elif` chain assigns a keyword
to this theme only. -/
def assignTheme (kw : String) : Option String :=
  (themeRules.find? (fun rule =>
    rule.2.any (fun term =>
      containsSub term.data (kw.data.map Char.toLower)))).map (·.1)

/-- Embeds `cluster_keywords(keyword_dict)`: per bank, each keyword goes
to the first matching theme only (keywords matching no theme are
dropped), and themes left with no keywords are removed from the bank's
theme map. -/
def cluster_keywords (keyword_dict : List (String × List String)) :
    List (String × List (String × List String)) :=
  keyword_dict.map (fun p =>
    (p.1, (themeRules.map (fun rule =>
      (rule.1, p.2.filter (fun kw => assignTheme kw == some rule.1)))).filter
        (fun q => !q.2.isEmpty)))

/-- Whether position `i` of `t` holds a word character (`false` beyond
the end of the text). -/
def isWordAt (t : List Char) (i : Nat) : Bool :=
  decide (i < t.length) && isWordChar (t.getD i ' ')

/-- The regex `\b`: a word boundary sits at position `i` iff exactly one
of the two adjacent positions holds a word character. -/
def boundaryAt (t : List Char) (i : Nat) : Bool :=
  (match i with
   | 0 => false
   | j + 1 => isWordAt t j) != isWordAt t i

/-- One alternative `\b<kw>\b` of the pattern `assign_themes_to_reviews`
builds, tested with `re.IGNORECASE`: some position of the lowercased
review carries the lowercased keyword with word boundaries on both
sides. -/
def kwMatch (kw review : String) : Bool :=
  let t := review.data.map Char.toLower
  let k := kw.data.map Char.toLower
  (List.range (t.length + 1)).any (fun i =>
    ((t.drop i).take k.length == k) && boundaryAt t i &&
      boundaryAt t (i + k.length))

/-- `re.search('|'.join(...), review, re.IGNORECASE)` over the escaped
keyword alternatives of one theme. -/
def matchesAnyKw (kws : List String) (review : String) : Bool :=
  kws.any (fun kw => kwMatch kw review)

/-- One `df.loc[bank_mask, ...].apply(...)` update of
`assign_themes_to_reviews`: append `theme + ';'` to the themes of each
of the bank's rows whose review matches the theme's keyword pattern. -/
def addThemeToRows (bank theme : String) (kws : List String)
    (rows : List TRow) : List TRow :=
  rows.map (fun r =>
    if r.bank == bank && matchesAnyKw kws r.review then
      { r with themes := r.themes ++ theme ++ ";" }
    else r)

/-- Drop every trailing semicolon of a char list (working from the
right). -/
def stripTrailing (d : List Char) : List Char :=
  (d.reverse.dropWhile (fun c => c == ';')).reverse

/-- Python `str.rstrip(';')`. -/
def rstripSemi (s : String) : String :=
  String.mk (stripTrailing s.data)

/-- Embeds `assign_themes_to_reviews(df, theme_dict)`: themes start as
`''`; for each bank of the frame in first-appearance order (banks absent
from `theme_dict` are skipped) and each theme of that bank's map with a
non-empty keyword list, matching rows get the theme name appended with a
trailing semicolon; finally trailing semicolons are stripped and an
empty themes string is replaced by `'No Theme'`. -/
def assign_themes_to_reviews (df : List TRow)
    (theme_dict : List (String × List (String × List String))) :
    List TRow :=
  let df0 := df.map (fun r => { r with themes := "" })
  let df1 := (uniqueFirst (df0.map (·.bank))).foldl (fun acc bank =>
    match theme_dict.lookup bank with
    | none => acc
    | some themes => themes.foldl (fun acc2 q =>
        if q.2.isEmpty then acc2 else addThemeToRows bank q.1 q.2 acc2) acc)
    df0
  df1.map (fun r =>
    let t := rstripSemi r.themes
    { r with themes := if t = "" then "No Theme" else t })

/-- The specification's "theme names joined with semicolons". -/
def joinSemi : List String → String
  | [] => ""
  | [t] => t
  | t :: ts => t ++ ";" ++ joinSemi ts

/-- The themes string accumulated by the tagging loop is always a
concatenation of taxonomy names each followed by `';'`. -/
def ThemesInv (s : String) : Prop :=
  ∃ l : List String, (∀ t ∈ l, t ∈ taxonomy) ∧
    s.data = (l.map (fun t => t.data ++ [';'])).flatten

theorem themesInv_empty : ThemesInv "" :=
  ⟨[], fun t ht => absurd ht (List.not_mem_nil t), rfl⟩

theorem themesInv_append (s theme : String) (h : ThemesInv s)
    (ht : theme ∈ taxonomy) : ThemesInv (s ++ theme ++ ";") := by
  obtain ⟨l, hl, hd⟩ := h
  refine ⟨l ++ [theme], ?_, ?_⟩
  · intro t htl
    rcases List.mem_append.mp htl with h1 | h1
    · exact hl t h1
    · rw [List.mem_singleton.mp h1]
      exact ht
  · simp only [String.data_append, hd, List.map_append, List.map_cons,
      List.map_nil, List.flatten_append, List.flatten_cons,
      List.flatten_nil, List.append_nil, List.append_assoc]

theorem addThemeToRows_inv (bank theme : String) (kws : List String)
    (rows : List TRow) (ht : theme ∈ taxonomy)
    (h : ∀ r ∈ rows, ThemesInv r.themes) :
    ∀ r ∈ addThemeToRows bank theme kws rows, ThemesInv r.themes := by
  intro r hr
  obtain ⟨r0, hr0, rfl⟩ := List.mem_map.mp hr
  by_cases hc : (r0.bank == bank && matchesAnyKw kws r0.review) = true
  · rw [if_pos hc]
    exact themesInv_append r0.themes theme (h r0 hr0) ht
  · rw [if_neg hc]
    exact h r0 hr0

theorem innerFold_inv (bank : String) :
    ∀ (themes : List (String × List String)),
      (∀ q ∈ themes, q.1 ∈ taxonomy) →
      ∀ acc : List TRow, (∀ r ∈ acc, ThemesInv r.themes) →
      ∀ r ∈ themes.foldl (fun acc2 q =>
          if q.2.isEmpty then acc2 else addThemeToRows bank q.1 q.2 acc2)
        acc, ThemesInv r.themes := by
  intro themes
  induction themes with
  | nil =>
    intro _ acc h r hr
    simp only [List.foldl_nil] at hr
    exact h r hr
  | cons q qs ih =>
    intro hth acc h
    simp only [List.foldl_cons]
    apply ih (fun q' hq' => hth q' (List.mem_cons_of_mem _ hq'))
    by_cases hq : q.2.isEmpty = true
    · rw [if_pos hq]
      exact h
    · rw [if_neg hq]
      exact addThemeToRows_inv bank q.1 q.2 acc
        (hth q (List.mem_cons_self _ _)) h

theorem outerFold_inv
    (theme_dict : List (String × List (String × List String)))
    (hdict : ∀ bank themes, theme_dict.lookup bank = some themes →
      ∀ q ∈ themes, q.1 ∈ taxonomy) :
    ∀ (banks : List String) (acc : List TRow),
      (∀ r ∈ acc, ThemesInv r.themes) →
      ∀ r ∈ banks.foldl (fun acc bank =>
          match theme_dict.lookup bank with
          | none => acc
          | some themes => themes.foldl (fun acc2 q =>
              if q.2.isEmpty then acc2
              else addThemeToRows bank q.1 q.2 acc2) acc) acc,
        ThemesInv r.themes := by
  intro banks
  induction banks with
  | nil =>
    intro acc h r hr
    simp only [List.foldl_nil] at hr
    exact h r hr
  | cons b bs ih =>
    intro acc h
    simp only [List.foldl_cons]
    apply ih
    cases hl : theme_dict.lookup b with
    | none => simpa [hl] using h
    | some themes =>
      simp only [hl]
      exact innerFold_inv b themes (hdict b themes hl) acc h

theorem lookup_mem {β : Type} :
    ∀ (l : List (String × β)) (a : String) (b : β),
      l.lookup a = some b → ∃ k, (k, b) ∈ l := by
  intro l
  induction l with
  | nil => intro a b h; simp [List.lookup] at h
  | cons p ps ih =>
    intro a b h
    simp only [List.lookup] at h
    by_cases hk : (a == p.1) = true
    · rw [hk] at h
      refine ⟨p.1, ?_⟩
      have : p.2 = b := by
        simpa using h
      rw [← this]
      exact List.mem_cons_self _ _
    · rw [Bool.not_eq_true] at hk
      rw [hk] at h
      obtain ⟨k, hkmem⟩ := ih a b h
      exact ⟨k, List.mem_cons_of_mem _ hkmem⟩

theorem cluster_keywords_taxonomy (kd : List (String × List String))
    (bank : String) (themes : List (String × List String))
    (h : (cluster_keywords kd).lookup bank = some themes) :
    ∀ q ∈ themes, q.1 ∈ taxonomy := by
  obtain ⟨k, hk⟩ := lookup_mem _ bank themes h
  obtain ⟨p, _, heq⟩ := List.mem_map.mp hk
  intro q hq
  have hth : themes = (themeRules.map (fun rule =>
      (rule.1, p.2.filter (fun kw => assignTheme kw == some rule.1)))).filter
        (fun q => !q.2.isEmpty) := by
    have := congrArg Prod.snd heq
    simpa using this.symm
  rw [hth] at hq
  have hq' := List.mem_of_mem_filter hq
  obtain ⟨rule, hrule, hqeq⟩ := List.mem_map.mp hq'
  rw [← hqeq]
  exact List.mem_map.mpr ⟨rule, hrule, rfl⟩

theorem dropWhile_append_of_ne_nil (p : Char → Bool) :
    ∀ (xs ys : List Char), xs.dropWhile p ≠ [] →
      (xs ++ ys).dropWhile p = xs.dropWhile p ++ ys := by
  intro xs
  induction xs with
  | nil => intro ys h; exact absurd rfl h
  | cons c cs ih =>
    intro ys h
    by_cases hc : p c = true
    · rw [List.cons_append, List.dropWhile_cons, if_pos hc]
      rw [List.dropWhile_cons, if_pos hc] at h ⊢
      exact ih ys h
    · rw [List.cons_append, List.dropWhile_cons, if_neg hc,
        List.dropWhile_cons, if_neg hc]
      rfl

theorem dropWhile_semi_reverse (x : List Char) (hne : x ≠ [])
    (hsemi : ∀ c ∈ x, c ≠ ';') :
    x.reverse.dropWhile (fun c => c == ';') = x.reverse := by
  rcases List.eq_nil_or_concat x with rfl | ⟨L, a, rfl⟩
  · exact absurd rfl hne
  · have ha : (a == ';') = false := by
      simpa using hsemi a (by simp [List.concat_eq_append])
    rw [List.concat_eq_append, List.reverse_append]
    simp only [List.reverse_cons, List.reverse_nil, List.nil_append,
      List.singleton_append]
    rw [List.dropWhile_cons, ha]
    simp

theorem stripTrailing_append (A rest : List Char)
    (h : rest.reverse.dropWhile (fun c => c == ';') ≠ []) :
    stripTrailing (A ++ rest) = A ++ stripTrailing rest := by
  unfold stripTrailing
  rw [List.reverse_append, dropWhile_append_of_ne_nil _ _ _ h,
    List.reverse_append, List.reverse_reverse]

theorem semi_data : (";" : String).data = [';'] := rfl

theorem stripTrailing_flatten :
    ∀ (l : List String),
      (∀ t ∈ l, t.data ≠ [] ∧ ∀ c ∈ t.data, c ≠ ';') → l ≠ [] →
      stripTrailing ((l.map (fun t => t.data ++ [';'])).flatten)
          = (joinSemi l).data ∧
        (joinSemi l).data ≠ [] := by
  intro l
  induction l with
  | nil => intro _ h; exact absurd rfl h
  | cons t ts ih =>
    intro hwf _
    obtain ⟨htne, htsemi⟩ := hwf t (List.mem_cons_self _ _)
    cases ts with
    | nil =>
      simp only [List.map_cons, List.map_nil, List.flatten_cons,
        List.flatten_nil, List.append_nil]
      constructor
      · show stripTrailing (t.data ++ [';']) = t.data
        unfold stripTrailing
        rw [List.reverse_append]
        simp only [List.reverse_cons, List.reverse_nil, List.nil_append,
          List.singleton_append]
        rw [List.dropWhile_cons, if_pos (by simp),
          dropWhile_semi_reverse t.data htne htsemi, List.reverse_reverse]
      · exact htne
    | cons u us =>
      have hwf' : ∀ t' ∈ u :: us, t'.data ≠ [] ∧ ∀ c ∈ t'.data, c ≠ ';' :=
        fun t' ht' => hwf t' (List.mem_cons_of_mem _ ht')
      obtain ⟨ihstrip, ihne⟩ := ih hwf' (by simp)
      have hdrop : ((((u :: us).map (fun t => t.data ++ [';'])).flatten).reverse.dropWhile
          (fun c => c == ';')) ≠ [] := by
        intro hzero
        have : stripTrailing (((u :: us).map
            (fun t => t.data ++ [';'])).flatten) = [] := by
          unfold stripTrailing
          rw [hzero]
          rfl
        rw [ihstrip] at this
        exact ihne this
      constructor
      · rw [List.map_cons, List.flatten_cons,
          stripTrailing_append _ _ hdrop, ihstrip]
        show t.data ++ [';'] ++ (joinSemi (u :: us)).data
            = (joinSemi (t :: u :: us)).data
        show t.data ++ [';'] ++ (joinSemi (u :: us)).data
            = (t ++ ";" ++ joinSemi (u :: us)).data
        rw [String.data_append, String.data_append, semi_data]
      · show (t ++ ";" ++ joinSemi (u :: us)).data ≠ []
        rw [String.data_append, String.data_append, semi_data]
        simp [htne]

theorem taxonomy_wf :
    ∀ t ∈ taxonomy, t.data ≠ [] ∧ ∀ c ∈ t.data, c ≠ ';' := by
  decide

/-- C5: after theme assignment over the maps produced by
`cluster_keywords`, every review's themes field is either the sentinel
`'No Theme'` or a non-empty list of names from the fixed taxonomy joined
with semicolons. -/
theorem C5_theme_totality (df : List TRow)
    (kd : List (String × List String)) (r : TRow)
    (hr : r ∈ assign_themes_to_reviews df (cluster_keywords kd)) :
    r.themes = "No Theme" ∨
      ∃ l : List String, l ≠ [] ∧ (∀ t ∈ l, t ∈ taxonomy) ∧
        r.themes = joinSemi l := by
  unfold assign_themes_to_reviews at hr
  obtain ⟨r1, hr1, rfl⟩ := List.mem_map.mp hr
  have hinv : ThemesInv r1.themes := by
    refine outerFold_inv (cluster_keywords kd)
      (fun bank themes h => cluster_keywords_taxonomy kd bank themes h)
      _ _ ?_ r1 hr1
    intro r0 hr0
    obtain ⟨r0', _, rfl⟩ := List.mem_map.mp hr0
    exact themesInv_empty
  obtain ⟨l, hl, hdata⟩ := hinv
  cases l with
  | nil =>
    left
    have hempty : r1.themes = "" := by
      cases hthemes : r1.themes with
      | mk d =>
        rw [hthemes] at hdata
        simp only [List.map_nil, List.flatten_nil] at hdata
        rw [hdata]
    simp only [hempty]
    have : rstripSemi "" = "" := rfl
    rw [this]
    rfl
  | cons t ts =>
    right
    have hwf : ∀ t' ∈ t :: ts, t'.data ≠ [] ∧ ∀ c ∈ t'.data, c ≠ ';' :=
      fun t' ht' => taxonomy_wf t' (hl t' ht')
    obtain ⟨hstrip, hne⟩ := stripTrailing_flatten (t :: ts) hwf (by simp)
    have hrs : rstripSemi r1.themes = joinSemi (t :: ts) := by
      unfold rstripSemi
      rw [hdata, hstrip]
    refine ⟨t :: ts, by simp, hl, ?_⟩
    simp only [hrs]
    rw [if_neg]
    intro hj
    apply hne
    rw [hj]

/-- Witness for C5 at a concrete input: the review "login error again"
is tagged with the `Account Access Issues` theme, which satisfies the
taxonomy invariant. -/
theorem C5_theme_totality_witness :
    (⟨"login error again", "CBE", "login error again",
        "Account Access Issues"⟩ : TRow).themes = "No Theme" ∨
      ∃ l : List String, l ≠ [] ∧ (∀ t ∈ l, t ∈ taxonomy) ∧
        (⟨"login error again", "CBE", "login error again",
          "Account Access Issues"⟩ : TRow).themes = joinSemi l :=
  C5_theme_totality
    [⟨"login error again", "CBE", "login error again", ""⟩]
    [("CBE", ["login", "error"])]
    ⟨"login error again", "CBE", "login error again",
      "Account Access Issues"⟩
    (by decide)

/-! ### TextCleaner (`clean_text`, `tokenize_text`, `process_reviews`) -/

/-- Modelled from the `emoji` library's data: a character whose
occurrences `emoji.replace_emoji(text, replace='')` removes. Every such
character lies outside the ASCII range. -/
def isEmojiLib (c : Char) : Bool :=
  (0x1F000 ≤ c.toNat && c.toNat ≤ 0x1FAFF) ||
  (0x2600 ≤ c.toNat && c.toNat ≤ 0x27BF) ||
  (0x2190 ≤ c.toNat && c.toNat ≤ 0x21FF) ||
  (0x2B00 ≤ c.toNat && c.toNat ≤ 0x2BFF) ||
  (0xFE00 ≤ c.toNat && c.toNat ≤ 0xFE0F) ||
  c.toNat = 0x00A9 || c.toNat = 0x00AE || c.toNat = 0x203C ||
  c.toNat = 0x2049 || c.toNat = 0x20E3

/-- The explicit emoji code-point ranges removed by the regex in Step 2
of `clean_text`. -/
def inEmojiRanges (c : Char) : Bool :=
  (0x1F600 ≤ c.toNat && c.toNat ≤ 0x1F64F) ||
  (0x1F300 ≤ c.toNat && c.toNat ≤ 0x1F5FF) ||
  (0x1F680 ≤ c.toNat && c.toNat ≤ 0x1F6FF) ||
  (0x1F700 ≤ c.toNat && c.toNat ≤ 0x1F77F) ||
  (0x1F780 ≤ c.toNat && c.toNat ≤ 0x1F7FF) ||
  (0x1F800 ≤ c.toNat && c.toNat ≤ 0x1F8FF) ||
  (0x1F900 ≤ c.toNat && c.toNat ≤ 0x1F9FF) ||
  (0x1FA00 ≤ c.toNat && c.toNat ≤ 0x1FA6F) ||
  (0x1FA70 ≤ c.toNat && c.toNat ≤ 0x1FAFF) ||
  (0x2700 ≤ c.toNat && c.toNat ≤ 0x27BF)

/-- Modelled from `unicodedata`: the NFKD decomposition of one
character, with a representative table of Latin characters that have
ASCII-compatibility decompositions; a character without a decomposition
(the default case — in particular the entire Ethiopic block) decomposes
to itself. -/
def nfkdDecomp (c : Char) : List Char :=
  if c = 'é' then ['e', Char.ofNat 0x0301]
  else if c = 'è' then ['e', Char.ofNat 0x0300]
  else if c = 'ü' then ['u', Char.ofNat 0x0308]
  else if c = 'ñ' then ['n', Char.ofNat 0x0303]
  else if c = 'á' then ['a', Char.ofNat 0x0301]
  else [c]

/-- Step 3 of `clean_text` on one character:
`unicodedata.normalize('NFKD', text).encode('ascii', 'ignore')` — NFKD
decomposition followed by dropping every non-ASCII code point. -/
def nfkdAsciiChar (c : Char) : List Char :=
  if c.toNat < 128 then [c]
  else (nfkdDecomp c).filter (fun d => d.toNat < 128)

/-- Modelled from the NLTK English stopword list loaded by `clean_text`
via `stopwords.words('english')`; the list's entries containing an
apostrophe are omitted from the model. -/
def stopWords : List String :=
  ["i", "me", "my", "myself", "we", "our", "ours", "ourselves",
   "you", "your", "yours", "yourself", "yourselves",
   "he", "him", "his", "himself", "she", "her", "hers", "herself",
   "it", "its", "itself", "they", "them", "their", "theirs",
   "themselves", "what", "which", "who", "whom", "this", "that",
   "these", "those", "am", "is", "are", "was", "were", "be", "been",
   "being", "have", "has", "had", "having", "do", "does", "did",
   "doing", "a", "an", "the", "and", "but", "if", "or", "because",
   "as", "until", "while", "of", "at", "by", "for", "with", "about",
   "against", "between", "into", "through", "during", "before",
   "after", "above", "below", "to", "from", "up", "down", "in", "out",
   "on", "off", "over", "under", "again", "further", "then", "once",
   "here", "there", "when", "where", "why", "how", "all", "any",
   "both", "each", "few", "more", "most", "other", "some", "such",
   "no", "nor", "not", "only", "own", "same", "so", "than", "too",
   "very", "s", "t", "can", "will", "just", "don", "should", "now",
   "d", "ll", "m", "o", "re", "ve", "y", "ain", "aren", "couldn",
   "didn", "doesn", "hadn", "hasn", "haven", "isn", "ma", "mightn",
   "mustn", "needn", "shan", "shouldn", "wasn", "weren", "won",
   "wouldn"]

/-- Worker for Python `str.split()`: scan the characters, accumulating
the current word in reverse; whitespace flushes the accumulated word (if
any), and the final word is flushed at the end. -/
def wsSplitGo (cur : List Char) : List Char → List (List Char)
  | [] => if cur = [] then [] else [cur.reverse]
  | c :: cs =>
    if isPySpaceChar c then
      (if cur = [] then wsSplitGo [] cs else cur.reverse :: wsSplitGo [] cs)
    else wsSplitGo (c :: cur) cs

/-- Python `str.split()` with no argument: split on runs of whitespace,
discarding empty chunks. -/
def wsSplit (l : List Char) : List (List Char) :=
  wsSplitGo [] l

/-- Python `' '.join(words)`. -/
def joinSpace : List (List Char) → List Char
  | [] => []
  | [w] => w
  | w :: ws => w ++ ' ' :: joinSpace ws

/-- Steps 1-4 of `clean_text` on the character list: Step 1 removes
emoji via the `emoji` library, Step 2 removes the explicit emoji ranges,
Step 3 NFKD-normalizes and drops non-ASCII code points, Step 4
lowercases and removes punctuation
(`re.sub(r'[^\w\s]', '', text.lower())`). -/
def cleanStage4 (l : List Char) : List Char :=
  ((((l.filter (fun c => !isEmojiLib c)).filter
    (fun c => !inEmojiRanges c)).flatMap nfkdAsciiChar).map
      Char.toLower).filter (fun c => isWordChar c || isPySpaceChar c)

/-- Step 5 of `clean_text`, before joining: split on whitespace and drop
stopword tokens. -/
def cleanWords (l : List Char) : List (List Char) :=
  (wsSplit (cleanStage4 l)).filter
    (fun w => !stopWords.contains (String.mk w))

/-- The character-list core of `clean_text`: Steps 1-5 and the final
`' '.join(...)`. -/
def cleanChars (l : List Char) : List Char :=
  joinSpace (cleanWords l)

/-- Embeds `clean_text(text)`. -/
def clean_text (text : String) : String :=
  String.mk (cleanChars text.data)

/-- Modelled from `nltk.word_tokenize` on the cleaned
(single-space-separated, word-character-only) texts this pipeline gives
it: split on whitespace. -/
def tokenize_text (text : String) : List String :=
  (wsSplit text.data).map String.mk

/-- Embeds `process_reviews(df)`: overwrite the `review` column with the
cleaned text, then derive the `tokens` column from the cleaned text. -/
def process_reviews (df : List PRow) : List (PRow × List String) :=
  df.map (fun r =>
    ({ r with review := clean_text r.review },
      tokenize_text (clean_text r.review)))

theorem toNat_ofNat_of_lt {m : Nat} (h : m < 0xD800) :
    (Char.ofNat m).toNat = m := by
  have hv : m.isValidChar := Or.inl h
  unfold Char.ofNat
  rw [dif_pos hv]
  unfold Char.ofNatAux
  simp [Char.toNat, UInt32.toNat, BitVec.toNat_ofNatLt]

theorem toLower_toNat_not_upper (c : Char) :
    ¬(65 ≤ (Char.toLower c).toNat ∧ (Char.toLower c).toNat ≤ 90) := by
  unfold Char.toLower
  by_cases h : c.toNat ≥ 65 ∧ c.toNat ≤ 90
  · rw [if_pos h]
    rw [toNat_ofNat_of_lt (by omega)]
    omega
  · rw [if_neg h]
    omega

theorem toLower_fix (c : Char) (h : ¬(65 ≤ c.toNat ∧ c.toNat ≤ 90)) :
    Char.toLower c = c := by
  unfold Char.toLower
  rw [if_neg h]

theorem toLower_idem (c : Char) :
    Char.toLower (Char.toLower c) = Char.toLower c :=
  toLower_fix _ (toLower_toNat_not_upper c)

theorem toLower_lt128 (c : Char) (h : c.toNat < 128) :
    (Char.toLower c).toNat < 128 := by
  unfold Char.toLower
  by_cases hc : c.toNat ≥ 65 ∧ c.toNat ≤ 90
  · rw [if_pos hc, toNat_ofNat_of_lt (by omega)]
    omega
  · rw [if_neg hc]
    exact h

theorem ascii_not_emojiLib (c : Char) (h : c.toNat < 128) :
    isEmojiLib c = false := by
  by_contra hx
  rw [Bool.not_eq_false] at hx
  simp only [isEmojiLib, Bool.or_eq_true, Bool.and_eq_true,
    decide_eq_true_eq] at hx
  rcases hx with
    (((((((((hx | hx) | hx) | hx) | hx) | hx) | hx) | hx) | hx) | hx) <;>
    omega

theorem ascii_not_emojiRanges (c : Char) (h : c.toNat < 128) :
    inEmojiRanges c = false := by
  by_contra hx
  rw [Bool.not_eq_false] at hx
  simp only [inEmojiRanges, Bool.or_eq_true, Bool.and_eq_true,
    decide_eq_true_eq] at hx
  rcases hx with
    (((((((((hx | hx) | hx) | hx) | hx) | hx) | hx) | hx) | hx) | hx) <;>
    omega

theorem nfkdAsciiChar_ascii (c : Char) :
    ∀ d ∈ nfkdAsciiChar c, d.toNat < 128 := by
  intro d hd
  unfold nfkdAsciiChar at hd
  by_cases h : c.toNat < 128
  · rw [if_pos h] at hd
    rw [List.mem_singleton.mp hd]
    exact h
  · rw [if_neg h] at hd
    simpa using (List.mem_filter.mp hd).2

theorem nfkdAsciiChar_of_ascii (c : Char) (h : c.toNat < 128) :
    nfkdAsciiChar c = [c] := by
  unfold nfkdAsciiChar
  rw [if_pos h]

theorem flatMap_eq_self {f : Char → List Char} :
    ∀ (l : List Char), (∀ c ∈ l, f c = [c]) → l.flatMap f = l := by
  intro l
  induction l with
  | nil => intro _; rfl
  | cons c cs ih =>
    intro h
    rw [List.flatMap_cons, h c (List.mem_cons_self _ _),
      ih (fun c' hc' => h c' (List.mem_cons_of_mem _ hc'))]
    rfl

theorem takeWhile_all {p : Char → Bool} :
    ∀ (l : List Char), (∀ c ∈ l, p c = true) → l.takeWhile p = l := by
  intro l
  induction l with
  | nil => intro _; rfl
  | cons c cs ih =>
    intro h
    rw [List.takeWhile_cons, h c (List.mem_cons_self _ _)]
    simp only [if_true]
    rw [ih (fun c' hc' => h c' (List.mem_cons_of_mem _ hc'))]

theorem dropWhile_all {p : Char → Bool} :
    ∀ (l : List Char), (∀ c ∈ l, p c = true) → l.dropWhile p = [] := by
  intro l
  induction l with
  | nil => intro _; rfl
  | cons c cs ih =>
    intro h
    rw [List.dropWhile_cons, h c (List.mem_cons_self _ _)]
    simp only [if_true]
    exact ih (fun c' hc' => h c' (List.mem_cons_of_mem _ hc'))

theorem takeWhile_append_stop {p : Char → Bool} :
    ∀ (xs : List Char) (y : Char) (ys : List Char),
      (∀ c ∈ xs, p c = true) → p y = false →
      (xs ++ y :: ys).takeWhile p = xs := by
  intro xs
  induction xs with
  | nil =>
    intro y ys _ hy
    rw [List.nil_append, List.takeWhile_cons, hy]
    simp
  | cons c cs ih =>
    intro y ys h hy
    rw [List.cons_append, List.takeWhile_cons, h c (List.mem_cons_self _ _)]
    simp only [if_true]
    rw [ih y ys (fun c' hc' => h c' (List.mem_cons_of_mem _ hc')) hy]

theorem dropWhile_append_stop {p : Char → Bool} :
    ∀ (xs : List Char) (y : Char) (ys : List Char),
      (∀ c ∈ xs, p c = true) → p y = false →
      (xs ++ y :: ys).dropWhile p = y :: ys := by
  intro xs
  induction xs with
  | nil =>
    intro y ys _ hy
    rw [List.nil_append, List.dropWhile_cons, hy]
    simp
  | cons c cs ih =>
    intro y ys h hy
    rw [List.cons_append, List.dropWhile_cons, h c (List.mem_cons_self _ _)]
    simp only [if_true]
    exact ih y ys (fun c' hc' => h c' (List.mem_cons_of_mem _ hc')) hy

theorem wsSplitGo_nil_eq (cur : List Char) :
    wsSplitGo cur [] = if cur = [] then [] else [cur.reverse] := rfl

theorem wsSplitGo_cons_space (cur : List Char) (c : Char) (cs : List Char)
    (h : isPySpaceChar c = true) :
    wsSplitGo cur (c :: cs) =
      (if cur = [] then wsSplitGo [] cs
        else cur.reverse :: wsSplitGo [] cs) := by
  show (if isPySpaceChar c then
      (if cur = [] then wsSplitGo [] cs else cur.reverse :: wsSplitGo [] cs)
    else wsSplitGo (c :: cur) cs) = _
  rw [h]
  simp

theorem wsSplitGo_cons_nospace (cur : List Char) (c : Char)
    (cs : List Char) (h : isPySpaceChar c = false) :
    wsSplitGo cur (c :: cs) = wsSplitGo (c :: cur) cs := by
  show (if isPySpaceChar c then
      (if cur = [] then wsSplitGo [] cs else cur.reverse :: wsSplitGo [] cs)
    else wsSplitGo (c :: cur) cs) = _
  rw [h]
  simp

theorem wsSplitGo_words :
    ∀ (l cur : List Char),
      (∀ c ∈ cur, isPySpaceChar c = false) →
      ∀ w ∈ wsSplitGo cur l, w ≠ [] ∧
        ∀ c ∈ w, isPySpaceChar c = false ∧ (c ∈ cur ∨ c ∈ l) := by
  intro l
  induction l with
  | nil =>
    intro cur hcur w hw
    rw [wsSplitGo_nil_eq] at hw
    by_cases hc : cur = []
    · rw [if_pos hc] at hw
      simp at hw
    · rw [if_neg hc] at hw
      rw [List.mem_singleton.mp hw]
      constructor
      · simpa using hc
      · intro c hcrev
        have hmem : c ∈ cur := List.mem_reverse.mp hcrev
        exact ⟨hcur c hmem, Or.inl hmem⟩
  | cons x xs ih =>
    intro cur hcur w hw
    by_cases hx : isPySpaceChar x = true
    · rw [wsSplitGo_cons_space cur x xs hx] at hw
      by_cases hc : cur = []
      · rw [if_pos hc] at hw
        obtain ⟨hne, hrest⟩ := ih [] (by simp) w hw
        refine ⟨hne, fun c hcw => ?_⟩
        obtain ⟨h1, h2⟩ := hrest c hcw
        rcases h2 with h2 | h2
        · simp at h2
        · exact ⟨h1, Or.inr (List.mem_cons_of_mem _ h2)⟩
      · rw [if_neg hc] at hw
        rcases List.mem_cons.mp hw with rfl | hw'
        · constructor
          · simpa using hc
          · intro c hcrev
            have hmem : c ∈ cur := List.mem_reverse.mp hcrev
            exact ⟨hcur c hmem, Or.inl hmem⟩
        · obtain ⟨hne, hrest⟩ := ih [] (by simp) w hw'
          refine ⟨hne, fun c hcw => ?_⟩
          obtain ⟨h1, h2⟩ := hrest c hcw
          rcases h2 with h2 | h2
          · simp at h2
          · exact ⟨h1, Or.inr (List.mem_cons_of_mem _ h2)⟩
    · have hx' : isPySpaceChar x = false := by simpa using hx
      rw [wsSplitGo_cons_nospace cur x xs hx'] at hw
      obtain ⟨hne, hrest⟩ := ih (x :: cur) (by
        intro c hcm
        rcases List.mem_cons.mp hcm with rfl | hc'
        · exact hx'
        · exact hcur c hc') w hw
      refine ⟨hne, fun c hcw => ?_⟩
      obtain ⟨h1, h2⟩ := hrest c hcw
      rcases h2 with h2 | h2
      · rcases List.mem_cons.mp h2 with rfl | h2'
        · exact ⟨h1, Or.inr (List.mem_cons_self _ _)⟩
        · exact ⟨h1, Or.inl h2'⟩
      · exact ⟨h1, Or.inr (List.mem_cons_of_mem _ h2)⟩

theorem wsSplit_words (l : List Char) :
    ∀ w ∈ wsSplit l, w ≠ [] ∧
      ∀ c ∈ w, isPySpaceChar c = false ∧ c ∈ l := by
  intro w hw
  obtain ⟨hne, hrest⟩ := wsSplitGo_words l [] (by simp) w hw
  refine ⟨hne, fun c hc => ?_⟩
  obtain ⟨h1, h2⟩ := hrest c hc
  rcases h2 with h2 | h2
  · simp at h2
  · exact ⟨h1, h2⟩

theorem wsSplit_nil : wsSplit [] = [] := rfl

theorem wsSplitGo_append_word :
    ∀ (w cur x : List Char),
      (∀ c ∈ w, isPySpaceChar c = false) →
      wsSplitGo cur (w ++ x) = wsSplitGo (w.reverse ++ cur) x := by
  intro w
  induction w with
  | nil => intro cur x _; simp
  | cons c w' ih =>
    intro cur x h
    rw [List.cons_append,
      wsSplitGo_cons_nospace cur c _ (h c (List.mem_cons_self _ _)),
      ih (c :: cur) x (fun d hd => h d (List.mem_cons_of_mem _ hd))]
    congr 1
    simp

theorem wsSplit_joinSpace :
    ∀ (ws : List (List Char)),
      (∀ w ∈ ws, w ≠ [] ∧ ∀ c ∈ w, isPySpaceChar c = false) →
      wsSplit (joinSpace ws) = ws := by
  intro ws
  induction ws with
  | nil => intro _; rfl
  | cons w ws ih =>
    intro h
    obtain ⟨hne, hnosp⟩ := h w (List.mem_cons_self _ _)
    cases ws with
    | nil =>
      show wsSplitGo [] w = [w]
      have hstep := wsSplitGo_append_word w [] [] hnosp
      rw [List.append_nil] at hstep
      rw [hstep, List.append_nil, wsSplitGo_nil_eq,
        if_neg (by simpa using hne), List.reverse_reverse]
    | cons w2 ws' =>
      show wsSplitGo [] (w ++ ' ' :: joinSpace (w2 :: ws')) = w :: w2 :: ws'
      rw [wsSplitGo_append_word w [] _ hnosp, List.append_nil,
        wsSplitGo_cons_space _ _ _ (by decide),
        if_neg (by simpa using hne), List.reverse_reverse]
      have hih := ih (fun w'' hw'' => h w'' (List.mem_cons_of_mem _ hw''))
      rw [show wsSplitGo [] (joinSpace (w2 :: ws')) =
        wsSplit (joinSpace (w2 :: ws')) from rfl, hih]

theorem mem_joinSpace :
    ∀ (ws : List (List Char)) (c : Char), c ∈ joinSpace ws →
      c = ' ' ∨ ∃ w ∈ ws, c ∈ w := by
  intro ws
  induction ws with
  | nil =>
    intro c hc
    simp [joinSpace] at hc
  | cons w ws ih =>
    intro c hc
    cases ws with
    | nil =>
      right
      exact ⟨w, List.mem_cons_self _ _, by simpa [joinSpace] using hc⟩
    | cons w2 ws' =>
      rw [show joinSpace (w :: w2 :: ws') =
        w ++ ' ' :: joinSpace (w2 :: ws') from rfl] at hc
      rcases List.mem_append.mp hc with h | h
      · right
        exact ⟨w, List.mem_cons_self _ _, h⟩
      · rcases List.mem_cons.mp h with rfl | h'
        · left
          rfl
        · rcases ih c h' with h'' | ⟨w', hw', hcw'⟩
          · left
            exact h''
          · right
            exact ⟨w', List.mem_cons_of_mem _ hw', hcw'⟩

theorem cleanStage4_chars (l : List Char) :
    ∀ c ∈ cleanStage4 l,
      c.toNat < 128 ∧ Char.toLower c = c ∧
        (isWordChar c || isPySpaceChar c) = true := by
  intro c hc
  unfold cleanStage4 at hc
  obtain ⟨hmap, hpred⟩ := List.mem_filter.mp hc
  obtain ⟨c0, hc0, rfl⟩ := List.mem_map.mp hmap
  have hc03 : c0.toNat < 128 := by
    obtain ⟨c1, _, hd⟩ := List.mem_flatMap.mp hc0
    exact nfkdAsciiChar_ascii c1 c0 hd
  exact ⟨toLower_lt128 c0 hc03, toLower_idem c0, hpred⟩

theorem cleanWords_props (l : List Char) :
    ∀ w ∈ cleanWords l, w ≠ [] ∧
      (∀ c ∈ w, isPySpaceChar c = false ∧ c ∈ cleanStage4 l) ∧
      (!stopWords.contains (String.mk w)) = true := by
  intro w hw
  obtain ⟨hmem, hpred⟩ := List.mem_filter.mp hw
  obtain ⟨hne, hrest⟩ := wsSplit_words _ w hmem
  exact ⟨hne, hrest, hpred⟩

theorem cleanChars_chars (l : List Char) :
    ∀ c ∈ cleanChars l,
      c.toNat < 128 ∧ Char.toLower c = c ∧
        (isWordChar c || isPySpaceChar c) = true := by
  intro c hc
  unfold cleanChars at hc
  rcases mem_joinSpace _ c hc with rfl | ⟨w, hw, hcw⟩
  · exact ⟨by decide, by decide, by decide⟩
  · obtain ⟨_, hrest, _⟩ := cleanWords_props l w hw
    exact cleanStage4_chars l c (hrest c hcw).2

theorem cleanStage4_of_clean (l : List Char) :
    cleanStage4 (cleanChars l) = cleanChars l := by
  have hchars := cleanChars_chars l
  have h1 : (cleanChars l).filter (fun c => !isEmojiLib c) =
      cleanChars l :=
    List.filter_eq_self.mpr (fun c hc => by
      simp [ascii_not_emojiLib c (hchars c hc).1])
  have h2 : (cleanChars l).filter (fun c => !inEmojiRanges c) =
      cleanChars l :=
    List.filter_eq_self.mpr (fun c hc => by
      simp [ascii_not_emojiRanges c (hchars c hc).1])
  have h3 : (cleanChars l).flatMap nfkdAsciiChar = cleanChars l :=
    flatMap_eq_self _ (fun c hc => nfkdAsciiChar_of_ascii c (hchars c hc).1)
  have h4 : (cleanChars l).map Char.toLower = cleanChars l := by
    rw [show (cleanChars l).map Char.toLower = (cleanChars l).map id from
      List.map_congr_left (fun c hc => (hchars c hc).2.1), List.map_id]
  have h5 : (cleanChars l).filter
      (fun c => isWordChar c || isPySpaceChar c) = cleanChars l :=
    List.filter_eq_self.mpr (fun c hc => (hchars c hc).2.2)
  unfold cleanStage4
  rw [h1, h2, h3, h4, h5]

theorem cleanWords_of_clean (l : List Char) :
    cleanWords (cleanChars l) = cleanWords l := by
  unfold cleanWords
  rw [cleanStage4_of_clean]
  show (wsSplit (cleanChars l)).filter _ = _
  rw [show cleanChars l = joinSpace (cleanWords l) from rfl]
  rw [wsSplit_joinSpace (cleanWords l) (fun w hw =>
    ⟨(cleanWords_props l w hw).1,
      fun c hc => ((cleanWords_props l w hw).2.1 c hc).1⟩)]
  exact List.filter_eq_self.mpr (fun w hw => (cleanWords_props l w hw).2.2)

/-- C9: cleaning is idempotent: `clean_text(clean_text(x)) =
clean_text(x)` for every string; in particular an already-cleaned text
is returned unchanged. -/
theorem C9_clean_text_idempotent (x : String) :
    clean_text (clean_text x) = clean_text x := by
  show String.mk (cleanChars (String.mk (cleanChars x.data)).data) =
    String.mk (cleanChars x.data)
  rw [show (String.mk (cleanChars x.data)).data = cleanChars x.data from rfl]
  rw [show cleanChars (cleanChars x.data) =
    joinSpace (cleanWords (cleanChars x.data)) from rfl]
  rw [cleanWords_of_clean]
  rfl

/-- C10 counterexample: the text `"éé"` consists entirely of non-ASCII
characters, yet `clean_text` maps it to `"ee"` — the NFKD step
transliterates rather than drops characters that have an
ASCII-compatibility decomposition, so an all-non-ASCII review need not
clean to the empty string. -/
theorem C10_counterexample :
    (∀ c ∈ ("éé" : String).data, 128 ≤ c.toNat) ∧
      clean_text "éé" = "ee" ∧ clean_text "éé" ≠ "" := by
  refine ⟨by decide, by decide, by decide⟩

/-- C10 (amended): `clean_text` always returns a pure-ASCII string, and
a text all of whose characters are non-ASCII *and have no
ASCII-compatibility decomposition* (in particular any Ethiopic-script
review whose translation fell back to the original) cleans to the empty
string, with an empty token list. -/
theorem C10_ascii_and_drop (s : String) :
    (∀ c ∈ (clean_text s).data, c.toNat < 128) ∧
      ((∀ c ∈ s.data, 128 ≤ c.toNat ∧
          ∀ d ∈ nfkdDecomp c, 128 ≤ d.toNat) →
        clean_text s = "" ∧ tokenize_text (clean_text s) = []) := by
  constructor
  · intro c hc
    rw [show (clean_text s).data = cleanChars s.data from rfl] at hc
    exact (cleanChars_chars s.data c hc).1
  · intro h
    have hnf : ∀ c ∈ ((s.data.filter (fun c => !isEmojiLib c)).filter
        (fun c => !inEmojiRanges c)), nfkdAsciiChar c = [] := by
      intro c hc
      have hcs : c ∈ s.data :=
        List.mem_of_mem_filter (List.mem_of_mem_filter hc)
      obtain ⟨h1, h2⟩ := h c hcs
      unfold nfkdAsciiChar
      rw [if_neg (by omega)]
      apply List.filter_eq_nil_iff.mpr
      intro d hd
      have := h2 d hd
      simp only [decide_eq_true_eq]
      omega
    have hl3 : ((s.data.filter (fun c => !isEmojiLib c)).filter
        (fun c => !inEmojiRanges c)).flatMap nfkdAsciiChar = [] :=
      List.flatMap_eq_nil_iff.mpr hnf
    have hempty : clean_text s = "" := by
      show String.mk (cleanChars s.data) = ""
      unfold cleanChars cleanWords cleanStage4
      rw [hl3]
      rw [show ((([] : List Char).map Char.toLower).filter
        (fun c => isWordChar c || isPySpaceChar c)) = [] from rfl]
      rw [wsSplit_nil]
      rfl
    refine ⟨hempty, ?_⟩
    rw [hempty]
    show (wsSplit ("" : String).data).map String.mk = []
    rw [show ("" : String).data = [] from rfl, wsSplit_nil]
    rfl

/-- Witness for the amended C10 at a concrete input: an Ethiopic review
text cleans to the empty string and tokenizes to the empty list. -/
theorem C10_ascii_and_drop_witness :
    clean_text "ሰላም" = "" ∧ tokenize_text (clean_text "ሰላም") = [] :=
  (C10_ascii_and_drop "ሰላም").2 (by decide)
